import Mathlib

/-!
Verification of the n2v example-notebook repository.

The repository consists of Jupyter notebooks that call the external `n2v`
Kohn-Sham inversion toolkit.  The notebook cells themselves perform a small
amount of numerical bookkeeping (splitting a restricted density matrix into
spin channels, building the Fermi-Amaldi guide potential from a Hartree
potential, assembling the exchange-correlation potential from its parts);
those computations are embedded here directly from the cells.  The inversion
algorithm itself (the Wu-Yang optimizer) is only invoked by the notebooks,
so its termination contract is modelled from the specification.

Conventions: machine floats are modelled as exact rationals, density
matrices as functions on atomic-orbital index pairs, grid potentials as
functions on a grid-point index, and the external (deterministic) Hartree
evaluator as an explicit function argument.
-/

namespace N2V

/-- Density or coefficient matrix indexed by atomic-orbital pairs. -/
abbrev AOMatrix := ℕ → ℕ → ℚ

/-- Potential sampled on an indexed set of grid points. -/
abbrev GridFn := ℕ → ℚ

/-- Pointwise sum of two matrices, the meaning of `Da + Db` in the cells. -/
def addM (A B : AOMatrix) : AOMatrix := fun i j => A i j + B i j

/-- Zero matrix, used as the out-of-range default for list indexing. -/
def zeroM : AOMatrix := fun _ _ => 0

/-! Embedding of the PySCF notebook's target-extraction cell:
`da, db = mf.make_rdm1()/2, mf.make_rdm1()/2`,
`ca, cb = mf.mo_coeff[:,:mol.nelec[0]], mf.mo_coeff[:,:mol.nelec[1]]`,
`ea, eb = mf.mo_energy, mf.mo_energy`, followed by
`inv.Dt = [da, db]`, `inv.ct = [ca, cb]`, `inv.et = [ea, eb]`. -/

/-- Alpha-channel target density: half of the restricted one-particle
density matrix. -/
def da (rdm1 : AOMatrix) : AOMatrix := fun i j => rdm1 i j / 2

/-- Beta-channel target density: half of the restricted one-particle
density matrix. -/
def db (rdm1 : AOMatrix) : AOMatrix := fun i j => rdm1 i j / 2

/-- Electron counts of neutral spin-restricted beryllium, `mol.nelec`. -/
def beNelec : ℕ × ℕ := (2, 2)

/-- Column slice `C[:, :n]` of a coefficient matrix. -/
def cols (C : AOMatrix) (n : ℕ) : AOMatrix := fun i j => if j < n then C i j else 0

/-- Alpha occupied orbital coefficients, `mf.mo_coeff[:,:mol.nelec[0]]`. -/
def ca (moCoeff : AOMatrix) : AOMatrix := cols moCoeff beNelec.1

/-- Beta occupied orbital coefficients, `mf.mo_coeff[:,:mol.nelec[1]]`. -/
def cb (moCoeff : AOMatrix) : AOMatrix := cols moCoeff beNelec.2

/-- Alpha orbital energies, `mf.mo_energy`. -/
def ea (moEnergy : GridFn) : GridFn := moEnergy

/-- Beta orbital energies, `mf.mo_energy`. -/
def eb (moEnergy : GridFn) : GridFn := moEnergy

/-- Target spin-channel densities handed to the inverter, `inv.Dt`. -/
def Dt (rdm1 : AOMatrix) : List AOMatrix := [da rdm1, db rdm1]

/-- Target orbital coefficients handed to the inverter, `inv.ct`. -/
def ct (moCoeff : AOMatrix) : List AOMatrix := [ca moCoeff, cb moCoeff]

/-- Target orbital energies handed to the inverter, `inv.et`. -/
def et (moEnergy : GridFn) : List GridFn := [ea moEnergy, eb moEnergy]

/-! Embedding of the visualization cells.  The external evaluator
`inv.eng.grid.hartree` (PySCF) respectively `inv.eng.grid.esp` (Psi4) is a
pure function of the density it is given; it enters as the argument
`gridHartree`.  The yet-unknown rest potential on the grid enters as the
argument `vrest`. -/

/-- Hartree potential of the total target density,
`vH = inv.eng.grid.hartree(density=inv.Dt[0]+inv.Dt[1], ...)`. -/
def vH (gridHartree : AOMatrix → GridFn) (dt : List AOMatrix) : GridFn :=
  gridHartree (addM (dt.getD 0 zeroM) (dt.getD 1 zeroM))

/-- Fermi-Amaldi guide potential,
`vFA = (1-1/(inv.nalpha + inv.nbeta)) * vH`. -/
def vFA (gridHartree : AOMatrix → GridFn) (dt : List AOMatrix)
    (nalpha nbeta : ℕ) : GridFn :=
  fun p => (1 - 1 / ((nalpha : ℚ) + (nbeta : ℚ))) * vH gridHartree dt p

/-- Recomputed Hartree potential of the vxc cell,
`hartree = inv.eng.grid.hartree(da+db, ...)`. -/
def hartree (gridHartree : AOMatrix → GridFn) (rdm1 : AOMatrix) : GridFn :=
  gridHartree (addM (da rdm1) (db rdm1))

/-- Recomputed Fermi-Amaldi potential of the vxc cell,
`fa = (1-1/(inv.nalpha + inv.nbeta)) * hartree`. -/
def fa (gridHartree : AOMatrix → GridFn) (rdm1 : AOMatrix)
    (nalpha nbeta : ℕ) : GridFn :=
  fun p => (1 - 1 / ((nalpha : ℚ) + (nbeta : ℚ))) * hartree gridHartree rdm1 p

/-- Exchange-correlation potential assembled in the vxc cell,
`vxc = vFA + vrest - vH`. -/
def vxc (gridHartree : AOMatrix → GridFn) (dt : List AOMatrix)
    (vrest : GridFn) (nalpha nbeta : ℕ) : GridFn :=
  fun p => vFA gridHartree dt nalpha nbeta p + vrest p - vH gridHartree dt p

/-! Recorded Wu-Yang runs.  Both beryllium notebooks record the printed
result of `inv.invert("WuYang", guide_components="fermi_amaldi")` in their
output cells. -/

/-- Convergence record printed by a Wu-Yang inversion run. -/
structure RecordedRun where
  iterations : ℕ
  gradNorm : ℚ
  successful : Bool
  deriving DecidableEq

/-- Recorded PySCF beryllium run:
`Optimization Successful within 2 iterations, grad 6.17e-04`. -/
def beWuYangPyscf : RecordedRun := ⟨2, 617 / 1000000, true⟩

/-- Recorded Psi4 beryllium run:
`Optimization Successful within 2 iterations, grad 6.10e-04`. -/
def beWuYangPsi4 : RecordedRun := ⟨2, 610 / 1000000, true⟩

/-- Zeta level of the orbital basis aug-cc-pvtz used for beryllium. -/
def orbitalBasisZeta : ℕ := 3

/-- Zeta level of the potential basis aug-cc-pvqz used for beryllium. -/
def potentialBasisZeta : ℕ := 4

/-! Spec-modelled Wu-Yang reconstructor.  The optimizer behind
`Inverter.invert` lives in the external toolkit, not in this repository;
its iteration contract is modelled from the specification: a step map
updates the trial-potential coefficients, the residual norm is the norm of
the density-matching gradient (the difference between the target density
and the density obtained by diagonalizing the Kohn-Sham operator built
from guide plus trial potential, projected on the potential basis),
success is declared exactly when that norm falls below the tolerance, and
an exhausted iteration budget returns the best iterate found together
with its residual norm and a false convergence flag. -/

/-- Trial-potential coefficient vector over the potential basis. -/
abbrev Vec := List ℚ

/-- Outcome of one reconstruction call: final coefficients, convergence
flag, iterations used, and the residual (gradient) norm at the returned
iterate. -/
structure RunResult where
  v : Vec
  converged : Bool
  iters : ℕ
  gradNorm : ℚ
  deriving DecidableEq

/-- Modelled from the spec: selects from the candidate list the iterate
with the least residual norm, with `b` as the running best. -/
def minIter (g : Vec → ℚ) : List Vec → Vec → Vec
  | [], b => b
  | w :: ws, b => minIter g ws (if g w < g b then w else b)

/-- Modelled from the spec: the iterates produced after 1, 2, ..., n
applications of the optimizer step to the initial guess. -/
def iterates (step : Vec → Vec) (v0 : Vec) (n : ℕ) : List Vec :=
  (List.range n).map (fun k => step^[k + 1] v0)

/-- Modelled from the spec: the best iterate found within a budget of `n`
steps, namely the one among the initial guess and all later iterates with
the least residual norm. -/
def bestIterate (step : Vec → Vec) (g : Vec → ℚ) (v0 : Vec) (n : ℕ) : Vec :=
  minIter g (iterates step v0 n) v0

/-- Modelled from the spec: one Wu-Yang reconstruction call, missing from
the repository (only invoked by the notebooks).  It tests the residual
norm `g` of each successive iterate against the tolerance; the first
iterate below tolerance is returned as converged, and if the iteration
budget is exhausted first, the best iterate found is returned with its
residual norm and a false convergence flag. -/
def wuYangRun (step : Vec → Vec) (g : Vec → ℚ) (tol : ℚ)
    (maxIter : ℕ) (v0 : Vec) : RunResult :=
  match (List.range maxIter).find? (fun k => decide (g (step^[k] v0) < tol)) with
  | some k => ⟨step^[k] v0, true, k, g (step^[k] v0)⟩
  | none => ⟨bestIterate step g v0 maxIter, false, maxIter,
      g (bestIterate step g v0 maxIter)⟩

/-! Helper lemmas about the spec-modelled reconstructor. -/

/-- The iterate chosen by `minIter` is the running best or comes from the list. -/
theorem minIter_mem (g : Vec → ℚ) (l : List Vec) (b : Vec) :
    minIter g l b = b ∨ minIter g l b ∈ l := by
  induction l generalizing b with
  | nil => left; rfl
  | cons w ws ih =>
    simp only [minIter]
    rcases ih (if g w < g b then w else b) with h | h
    · rw [h]
      by_cases hc : g w < g b
      · simp [hc]
      · simp [hc]
    · right
      exact List.mem_cons_of_mem _ h

/-- The iterate chosen by `minIter` has residual norm no larger than the running
best and than every list element. -/
theorem minIter_le (g : Vec → ℚ) (l : List Vec) (b : Vec) :
    g (minIter g l b) ≤ g b ∧ ∀ x ∈ l, g (minIter g l b) ≤ g x := by
  induction l generalizing b with
  | nil => exact ⟨le_refl _, by simp⟩
  | cons w ws ih =>
    simp only [minIter]
    obtain ⟨h1, h2⟩ := ih (if g w < g b then w else b)
    have hb : g (if g w < g b then w else b) ≤ g b := by
      by_cases hc : g w < g b
      · simp [hc]; exact le_of_lt hc
      · simp [hc]
    have hw : g (if g w < g b then w else b) ≤ g w := by
      by_cases hc : g w < g b
      · simp [hc]
      · simp [hc]; exact le_of_not_lt hc
    refine ⟨le_trans h1 hb, ?_⟩
    intro x hx
    rcases List.mem_cons.mp hx with h | h
    · rw [h]; exact le_trans h1 hw
    · exact h2 x h

/-- Every iterate within the budget is the initial guess or a member of
`iterates`. -/
theorem iterate_mem_candidates (step : Vec → Vec) (v0 : Vec) (n k : ℕ)
    (hk : k ≤ n) :
    step^[k] v0 = v0 ∨ step^[k] v0 ∈ iterates step v0 n := by
  cases k with
  | zero => left; exact Function.iterate_zero_apply step v0
  | succ m =>
    right
    simp only [iterates]
    exact List.mem_map.mpr ⟨m, List.mem_range.mpr (Nat.lt_of_succ_le hk), rfl⟩

/-- The best iterate has the least residual norm among all iterates within the
budget. -/
theorem bestIterate_le (step : Vec → Vec) (g : Vec → ℚ) (v0 : Vec) (n k : ℕ)
    (hk : k ≤ n) :
    g (bestIterate step g v0 n) ≤ g (step^[k] v0) := by
  obtain ⟨h1, h2⟩ := minIter_le g (iterates step v0 n) v0
  rcases iterate_mem_candidates step v0 n k hk with h | h
  · rw [h]; exact h1
  · exact h2 _ h

/-- The reported gradient norm is always the residual norm at the returned
potential. -/
theorem wuYangRun_gradNorm (step : Vec → Vec) (g : Vec → ℚ) (tol : ℚ) (n : ℕ)
    (v0 : Vec) :
    (wuYangRun step g tol n v0).gradNorm = g (wuYangRun step g tol n v0).v := by
  unfold wuYangRun
  rcases hf : (List.range n).find? (fun k => decide (g (step^[k] v0) < tol)) with _ | k <;>
    simp [hf]

/-- A converged run has residual norm below tolerance at the returned
potential. -/
theorem wuYangRun_converged_lt (step : Vec → Vec) (g : Vec → ℚ) (tol : ℚ) (n : ℕ)
    (v0 : Vec) (h : (wuYangRun step g tol n v0).converged = true) :
    g (wuYangRun step g tol n v0).v < tol := by
  unfold wuYangRun at h ⊢
  rcases hf : (List.range n).find? (fun k => decide (g (step^[k] v0) < tol)) with _ | k
  · rw [hf] at h
    simp at h
  · rw [hf] at h
    have h2 := List.find?_some hf
    simp only [decide_eq_true_eq] at h2
    simpa using h2

/-- A run whose budget is exhausted without meeting tolerance returns the best
iterate, unconverged, with the full iteration count. -/
theorem wuYangRun_exhausted (step : Vec → Vec) (g : Vec → ℚ) (tol : ℚ) (n : ℕ)
    (v0 : Vec) (h : ∀ k, k < n → ¬ g (step^[k] v0) < tol) :
    wuYangRun step g tol n v0 =
      ⟨bestIterate step g v0 n, false, n, g (bestIterate step g v0 n)⟩ := by
  have hf : (List.range n).find? (fun k => decide (g (step^[k] v0) < tol)) = none := by
    apply List.find?_eq_none.mpr
    intro x hx
    simp only [decide_eq_true_eq]
    exact h x (List.mem_range.mp hx)
  unfold wuYangRun
  rw [hf]

/-- A run started below tolerance converges immediately at the initial guess. -/
theorem wuYangRun_first_below_tol (step : Vec → Vec) (g : Vec → ℚ) (tol : ℚ)
    (m : ℕ) (w : Vec) (h : g w < tol) :
    wuYangRun step g tol (m + 1) w = ⟨w, true, 0, g w⟩ := by
  have hf : (List.range (m + 1)).find?
      (fun k => decide (g (step^[k] w) < tol)) = some 0 := by
    rw [List.range_succ_eq_map]
    rw [List.find?_cons_of_pos]
    simp [h]
  unfold wuYangRun
  rw [hf]
  simp

/-! Claim theorems. -/

/-- C1: the reconstructor reports success only when the residual norm of the
density produced from the guide-plus-trial Kohn-Sham potential against the
target density is below the configured tolerance, both at the returned
potential and in the reported diagnostic. -/
theorem wuYang_success_implies_density_match (step : Vec → Vec) (g : Vec → ℚ)
    (tol : ℚ) (n : ℕ) (v0 : Vec)
    (h : (wuYangRun step g tol n v0).converged = true) :
    g (wuYangRun step g tol n v0).v < tol ∧
      (wuYangRun step g tol n v0).gradNorm < tol :=
  ⟨wuYangRun_converged_lt step g tol n v0 h, by
    rw [wuYangRun_gradNorm]
    exact wuYangRun_converged_lt step g tol n v0 h⟩

/-- Witness for C1 at a concrete converging run. -/
theorem wuYang_success_implies_density_match_witness :
    (wuYangRun id (fun _ => (0 : ℚ)) 1 1 []).converged = true ∧
      ((0 : ℚ) < 1 ∧ (wuYangRun id (fun _ => (0 : ℚ)) 1 1 []).gradNorm < 1) :=
  ⟨by decide, wuYang_success_implies_density_match id (fun _ => 0) 1 1 [] (by decide)⟩

/-- C5: exhausting the iteration budget without meeting the tolerance is not
fatal: the call still returns, with a false convergence flag, the full
iteration count, the residual norm of the returned potential as diagnostic,
and the best iterate found, whose residual is no larger than that of any
iterate within the budget. -/
theorem wuYang_nonconvergence_returns_best (step : Vec → Vec) (g : Vec → ℚ)
    (tol : ℚ) (n : ℕ) (v0 : Vec)
    (h : ∀ k, k < n → ¬ g (step^[k] v0) < tol) :
    (wuYangRun step g tol n v0).converged = false ∧
      (wuYangRun step g tol n v0).iters = n ∧
      (wuYangRun step g tol n v0).gradNorm = g (wuYangRun step g tol n v0).v ∧
      ∀ k, k ≤ n → g (wuYangRun step g tol n v0).v ≤ g (step^[k] v0) := by
  rw [wuYangRun_exhausted step g tol n v0 h]
  exact ⟨rfl, rfl, rfl, fun k hk => bestIterate_le step g v0 n k hk⟩

/-- Witness for C5 at a concrete non-converging run. -/
theorem wuYang_nonconvergence_returns_best_witness :
    (∀ k, k < 1 → ¬ (1 : ℚ) < 0) ∧
      ((wuYangRun id (fun _ => (1 : ℚ)) 0 1 []).converged = false ∧
        (wuYangRun id (fun _ => (1 : ℚ)) 0 1 []).iters = 1 ∧
        (wuYangRun id (fun _ => (1 : ℚ)) 0 1 []).gradNorm = 1 ∧
        ∀ k, k ≤ 1 → (1 : ℚ) ≤ 1) :=
  ⟨fun _ _ => by norm_num,
    wuYang_nonconvergence_returns_best id (fun _ => 1) 0 1 []
      (fun _ _ => by norm_num)⟩

/-- C6: an inversion run invoked with an iteration cap of 0 returns
immediately with a false convergence flag, zero iterations used, and the
trial potential equal to the unchanged initial guess. -/
theorem wuYang_zero_cap_returns_initial (step : Vec → Vec) (g : Vec → ℚ)
    (tol : ℚ) (v0 : Vec) :
    (wuYangRun step g tol 0 v0).v = v0 ∧
      (wuYangRun step g tol 0 v0).converged = false ∧
      (wuYangRun step g tol 0 v0).iters = 0 :=
  ⟨rfl, rfl, rfl⟩

/-- C8: re-running the reconstructor with the converged output of a previous
run as the initial guess converges within at most one additional iteration. -/
theorem wuYang_rerun_from_converged (step : Vec → Vec) (g : Vec → ℚ) (tol : ℚ)
    (n m : ℕ) (v0 : Vec)
    (h : (wuYangRun step g tol n v0).converged = true) (hm : 1 ≤ m) :
    (wuYangRun step g tol m ((wuYangRun step g tol n v0).v)).converged = true ∧
      (wuYangRun step g tol m ((wuYangRun step g tol n v0).v)).iters ≤ 1 := by
  have hlt : g ((wuYangRun step g tol n v0).v) < tol :=
    wuYangRun_converged_lt step g tol n v0 h
  obtain ⟨p, rfl⟩ : ∃ p, m = p + 1 := ⟨m - 1, (Nat.succ_pred_eq_of_pos hm).symm⟩
  rw [wuYangRun_first_below_tol step g tol p _ hlt]
  exact ⟨rfl, Nat.zero_le 1⟩

/-- Witness for C8 at a concrete converging run restarted from its output. -/
theorem wuYang_rerun_from_converged_witness :
    (wuYangRun id (fun _ => (0 : ℚ)) 1 1 []).converged = true ∧ 1 ≤ 1 ∧
      ((wuYangRun id (fun _ => (0 : ℚ)) 1 1
          ((wuYangRun id (fun _ => (0 : ℚ)) 1 1 []).v)).converged = true ∧
        (wuYangRun id (fun _ => (0 : ℚ)) 1 1
          ((wuYangRun id (fun _ => (0 : ℚ)) 1 1 []).v)).iters ≤ 1) :=
  ⟨by decide, by decide,
    wuYang_rerun_from_converged id (fun _ => 0) 1 1 1 [] (by decide) (by decide)⟩

/-- C2: the Fermi-Amaldi guide potential equals the Hartree potential of the
total density Da+Db scaled pointwise by the factor 1 - 1/(nalpha + nbeta) at
every grid point. -/
theorem vFA_is_scaled_hartree (gridHartree : AOMatrix → GridFn)
    (Da Db : AOMatrix) (nalpha nbeta : ℕ) (p : ℕ) :
    vFA gridHartree [Da, Db] nalpha nbeta p =
      (1 - 1 / ((nalpha : ℚ) + (nbeta : ℚ))) * gridHartree (addM Da Db) p := rfl

/-- C3: both recorded beryllium Wu-Yang runs (guide fermi_amaldi, potential
basis of higher zeta level than the orbital basis) converged successfully in
2 iterations, a single-digit count, with final gradient norm below 1e-3. -/
theorem be_wuyang_recorded_convergence :
    beWuYangPyscf.successful = true ∧ beWuYangPyscf.iterations = 2 ∧
      beWuYangPyscf.iterations ≤ 9 ∧ beWuYangPyscf.gradNorm < 1 / 1000 ∧
      beWuYangPsi4.successful = true ∧ beWuYangPsi4.iterations = 2 ∧
      beWuYangPsi4.iterations ≤ 9 ∧ beWuYangPsi4.gradNorm < 1 / 1000 ∧
      orbitalBasisZeta < potentialBasisZeta := by
  refine ⟨rfl, rfl, by decide, ?_, rfl, rfl, by decide, ?_, by decide⟩
  · show (617 : ℚ) / 1000000 < 1 / 1000
    norm_num
  · show (610 : ℚ) / 1000000 < 1 / 1000
    norm_num

/-- C9: in the restricted PySCF example the two spin-channel targets are
equal halves of the full one-particle density matrix, their sum is the full
density, and the spin channels share orbital coefficients and energies, so
every inversion input is symmetric under spin-channel exchange. -/
theorem restricted_inputs_spin_symmetric (rdm1 moCoeff : AOMatrix)
    (moEnergy : GridFn) :
    (Dt rdm1).getD 0 zeroM = (Dt rdm1).getD 1 zeroM ∧
      addM ((Dt rdm1).getD 0 zeroM) ((Dt rdm1).getD 1 zeroM) = rdm1 ∧
      (ct moCoeff).getD 0 zeroM = (ct moCoeff).getD 1 zeroM ∧
      (et moEnergy).getD 0 (fun _ => 0) = (et moEnergy).getD 1 (fun _ => 0) := by
  refine ⟨rfl, ?_, rfl, rfl⟩
  funext i j
  show rdm1 i j / 2 + rdm1 i j / 2 = rdm1 i j
  ring

/-- C10: the vxc cell recomputes exactly the same Hartree and Fermi-Amaldi
potentials as the earlier cell from the same densities, and its computed
vxc = vFA + vrest - vH is identical to vrest + fa - hartree pointwise. -/
theorem vxc_recomputation_deterministic (gridHartree : AOMatrix → GridFn)
    (rdm1 : AOMatrix) (vrest : GridFn) (nalpha nbeta : ℕ) (p : ℕ) :
    vH gridHartree (Dt rdm1) p = hartree gridHartree rdm1 p ∧
      vFA gridHartree (Dt rdm1) nalpha nbeta p = fa gridHartree rdm1 nalpha nbeta p ∧
      vxc gridHartree (Dt rdm1) vrest nalpha nbeta p =
        vrest p + fa gridHartree rdm1 nalpha nbeta p -
          hartree gridHartree rdm1 p := by
  refine ⟨rfl, rfl, ?_⟩
  show vFA gridHartree (Dt rdm1) nalpha nbeta p + vrest p -
      vH gridHartree (Dt rdm1) p = _
  have h1 : vFA gridHartree (Dt rdm1) nalpha nbeta p =
      fa gridHartree rdm1 nalpha nbeta p := rfl
  have h2 : vH gridHartree (Dt rdm1) p = hartree gridHartree rdm1 p := rfl
  rw [h1, h2]
  ring

end N2V
